import Mathlib

/-!
Shallow embedding of the cache simulator (`cacheSim.cpp`).

Addresses, tags, indices, offsets and LRU counters are `unsigned long` in the
source; they are modelled as `Nat` (all operations used — masking, shifting,
division, increment — agree with the 64-bit machine semantics on the values
that occur, since no operation here can overflow past its inputs).
The `std::vector` containers are modelled as `List`s, and the imperative
loops as structural recursions that visit elements in the same order.
-/

namespace CacheSim

/-! Address decomposition: `MemRef::calculate_tag/index/offset` and the mask
derivations `CacheTable::calculate_offset_mask/index_mask`. -/

/-- CacheTable::calculate_offset_mask: `offsetMask_ = pow(2, offsetSize_) - 1`. -/
def calculate_offset_mask (offsetSize : Nat) : Nat := 2 ^ offsetSize - 1

/-- CacheTable::calculate_index_mask:
`indexMask_ = (pow(2, indexSize_ + offsetSize_) - 1) - offsetMask_`. -/
def calculate_index_mask (indexSize offsetSize : Nat) : Nat :=
  (2 ^ (indexSize + offsetSize) - 1) - calculate_offset_mask offsetSize

/-- MemRef::calculate_tag: `tag_ = address_ >> (indexSize + offsetSize)`. -/
def calculate_tag (address indexSize offsetSize : Nat) : Nat :=
  address >>> (indexSize + offsetSize)

/-- MemRef::calculate_index: `index_ = (address_ & indexMask) >> offsetSize`. -/
def calculate_index (address indexMask offsetSize : Nat) : Nat :=
  (address &&& indexMask) >>> offsetSize

/-- MemRef::calculate_offset: `offset_ = address_ & offsetMask`. -/
def calculate_offset (address offsetMask : Nat) : Nat :=
  address &&& offsetMask

/-- CacheTable::calculate_number_of_sets: guarded by `lineSize_ != 0 &&
setSize_ != 0`; when the guard fails the member keeps its previous value
(passed here as `numberOfSets`), and no error is raised. -/
def calculate_number_of_sets (totalCacheSize lineSize setSize numberOfSets : Nat) : Nat :=
  if lineSize ≠ 0 ∧ setSize ≠ 0 then totalCacheSize / lineSize / setSize else numberOfSets

/-- CacheTable::calculate_index_size: `indexSize_ = log2(numberOfSets_)`,
truncated to an integer by the assignment to the `int` member. -/
def calculate_index_size (numberOfSets : Nat) : Nat := Nat.log2 numberOfSets

/-- CacheTable::calculate_offset_size: `offsetSize_ = log2(lineSize_)`,
truncated to an integer by the assignment to the `int` member. -/
def calculate_offset_size (lineSize : Nat) : Nat := Nat.log2 lineSize

/-! The storage model: `CacheLine`, `CacheSet`, `CacheTable`. -/

/-- One cache line: a stored tag and its LRU counter (`CacheLine`). -/
structure CacheLine where
  tag : Nat
  LRUFlag : Nat
deriving DecidableEq, Repr

/-- CacheLine::increment_LRU. -/
def increment_LRU (l : CacheLine) : CacheLine := { l with LRUFlag := l.LRUFlag + 1 }

/-- One associative set: its capacity `setSize`, its assigned `index`, and the
resident lines in vector order (`CacheSet`). -/
structure CacheSet where
  setSize : Nat
  index : Nat
  cacheLine : List CacheLine
deriving DecidableEq, Repr

namespace CacheSet

/-- CacheSet::update_LRUs: increment every line's LRU counter. -/
def update_LRUs (s : CacheSet) : CacheSet :=
  { s with cacheLine := s.cacheLine.map increment_LRU }

/-- CacheSet::add_new_cache_line: append a fresh line whose LRU counter is set
to 0 by `set_LRU`. -/
def add_new_cache_line (s : CacheSet) (tag : Nat) : CacheSet :=
  { s with cacheLine := s.cacheLine ++ [{ tag := tag, LRUFlag := 0 }] }

/-- Position of the first line whose tag matches, exactly as the loop in
CacheSet::check_cache_lines scans the vector. -/
def find_tag_pos (tag : Nat) : List CacheLine → Option Nat
  | [] => none
  | l :: ls => if l.tag = tag then some 0 else (find_tag_pos tag ls).map (· + 1)

/-- Reset the LRU flag of the line at position `i` (the `it->set_LRU()` call on
the iterator at which the loop stopped). -/
def set_LRU_at : List CacheLine → Nat → List CacheLine
  | [], _ => []
  | l :: ls, 0 => { l with LRUFlag := 0 } :: ls
  | l :: ls, i + 1 => l :: set_LRU_at ls i

/-- CacheSet::check_cache_lines: scan for the tag; on the first match,
`update_LRUs()` ages the whole vector and the matched line is then reset to 0;
without a match the set is returned unchanged. -/
def check_cache_lines (s : CacheSet) (tag : Nat) : Bool × CacheSet :=
  match find_tag_pos tag s.cacheLine with
  | some i => (true, { s with cacheLine := set_LRU_at (s.cacheLine.map increment_LRU) i })
  | none => (false, s)

/-- Loop of CacheSet::find_LRU, carrying the position and LRU value of the
current best line; the strict `<` comparison keeps the first maximum. -/
def find_LRU_from (best bestLRU pos : Nat) : List CacheLine → Nat
  | [] => best
  | l :: ls =>
    if bestLRU < l.LRUFlag then find_LRU_from pos l.LRUFlag (pos + 1) ls
    else find_LRU_from best bestLRU (pos + 1) ls

/-- CacheSet::find_LRU: position of the first line with the maximal LRU value
(`currentLRU` starts at `begin()`; the empty case is unreachable in the
source, where dereferencing `begin()` would be undefined). -/
def find_LRU (s : CacheSet) : Nat :=
  match s.cacheLine with
  | [] => 0
  | l :: ls => find_LRU_from 0 l.LRUFlag 1 ls

/-- Overwrite the line at position `i` with the new tag and LRU 0
(`lineToReplace->setTag(tag); lineToReplace->set_LRU()`). -/
def replace_line_at (tag : Nat) : List CacheLine → Nat → List CacheLine
  | [], _ => []
  | _ :: ls, 0 => { tag := tag, LRUFlag := 0 } :: ls
  | l :: ls, i + 1 => l :: replace_line_at tag ls i

/-- CacheSet::update_cache_lines: append when there is room; otherwise locate
the victim with `find_LRU`, age the whole vector with `update_LRUs`, then
overwrite the victim's tag and reset its LRU. -/
def update_cache_lines (s : CacheSet) (tag : Nat) : CacheSet :=
  if s.cacheLine.length < s.setSize then
    s.add_new_cache_line tag
  else
    { s with cacheLine := replace_line_at tag (s.cacheLine.map increment_LRU) s.find_LRU }

end CacheSet

/-- The cache table: the sets, the recorded hit/miss flag of each processed
reference (the `hM_` field pushed onto `memRef_`), and the running counters. -/
structure CacheTable where
  cacheSet : List CacheSet
  memRefHM : List Bool
  totalHits : Nat
  totalMiss : Nat
  totalAccess : Nat
deriving DecidableEq, Repr

namespace CacheTable

/-- Loop of CacheTable::determine_hit_or_miss over the sets: at the first set
whose index matches, a successful `check_cache_lines` is a hit; otherwise the
set is updated with `update_cache_lines` and the loop breaks.  Non-matching
sets are untouched; with no match at all the result is a miss. -/
def probe_sets (index tag : Nat) : List CacheSet → Bool × List CacheSet
  | [] => (false, [])
  | s :: rest =>
    if index = s.index then
      match s.check_cache_lines tag with
      | (true, s2) => (true, s2 :: rest)
      | (false, s2) => (false, s2.update_cache_lines tag :: rest)
    else
      let r := probe_sets index tag rest
      (r.1, s :: r.2)

/-- CacheTable::determine_hit_or_miss: probe the sets, then bump `totalHits`
on a hit and `totalMiss` on a miss. -/
def determine_hit_or_miss (c : CacheTable) (index tag : Nat) : Bool × CacheTable :=
  let r := probe_sets index tag c.cacheSet
  if r.1 then (true, { c with cacheSet := r.2, totalHits := c.totalHits + 1 })
  else (false, { c with cacheSet := r.2, totalMiss := c.totalMiss + 1 })

/-- One iteration of the CacheTable::read_mem_trace loop for an
already-decomposed reference: classify it, record the flag
(`memRef->setHM(...)` followed by the push onto `memRef_`), and count the
access (`totalAccess++`). -/
def process_ref (c : CacheTable) (index tag : Nat) : CacheTable :=
  let r := c.determine_hit_or_miss index tag
  { r.2 with memRefHM := r.2.memRefHM ++ [r.1], totalAccess := r.2.totalAccess + 1 }

/-- CacheTable::read_mem_trace restricted to the core: process the decomposed
references in trace order. -/
def read_mem_trace (c : CacheTable) : List (Nat × Nat) → CacheTable
  | [] => c
  | (index, tag) :: rest => read_mem_trace (c.process_ref index tag) rest

end CacheTable

/-- CacheTable::create_cache_sets followed by set_index_for_cache_sets: `n`
empty sets of capacity `setSize`, indexed consecutively from `i`. -/
def make_sets (setSize : Nat) : Nat → Nat → List CacheSet
  | 0, _ => []
  | n + 1, i => { setSize := setSize, index := i, cacheLine := [] } :: make_sets setSize n (i + 1)

/-- A freshly constructed table: empty sets indexed `0..n-1`, counters at 0. -/
def initial_table (setSize numberOfSets : Nat) : CacheTable :=
  { cacheSet := make_sets setSize numberOfSets 0, memRefHM := [],
    totalHits := 0, totalMiss := 0, totalAccess := 0 }

/-! Arithmetic characterisation of the decomposition. -/

theorem index_mask_eq (ib ob : Nat) :
    calculate_index_mask ib ob = (2 ^ ib - 1) <<< ob := by
  unfold calculate_index_mask calculate_offset_mask
  rw [Nat.shiftLeft_eq]
  have hx : 1 ≤ 2 ^ ib := Nat.one_le_two_pow
  have hy : 1 ≤ 2 ^ ob := Nat.one_le_two_pow
  have hpow : 2 ^ (ib + ob) = 2 ^ ib * 2 ^ ob := Nat.pow_add 2 ib ob
  have hsub : (2 ^ ib - 1) * 2 ^ ob = 2 ^ ib * 2 ^ ob - 1 * 2 ^ ob :=
    Nat.sub_mul _ _ _
  have hle : 2 ^ ob ≤ 2 ^ ib * 2 ^ ob := Nat.le_mul_of_pos_left _ (Nat.two_pow_pos ib)
  omega

theorem calculate_offset_eq_mod (a ob : Nat) :
    calculate_offset a (calculate_offset_mask ob) = a % 2 ^ ob := by
  unfold calculate_offset calculate_offset_mask
  exact Nat.and_pow_two_sub_one_eq_mod a ob

theorem calculate_index_eq_mod (a ib ob : Nat) :
    calculate_index a (calculate_index_mask ib ob) ob = a / 2 ^ ob % 2 ^ ib := by
  unfold calculate_index
  rw [index_mask_eq]
  have h : (a &&& (2 ^ ib - 1) <<< ob) >>> ob = (a >>> ob) &&& (2 ^ ib - 1) := by
    apply Nat.eq_of_testBit_eq
    intro j
    simp [Nat.testBit_shiftRight, Nat.testBit_and, Nat.testBit_shiftLeft,
      Nat.testBit_two_pow_sub_one, Nat.add_sub_cancel_left, Bool.and_comm]
  rw [h, Nat.and_pow_two_sub_one_eq_mod, Nat.shiftRight_eq_div_pow]

theorem calculate_tag_eq_div (a ib ob : Nat) :
    calculate_tag a ib ob = a / 2 ^ (ib + ob) := by
  unfold calculate_tag
  exact Nat.shiftRight_eq_div_pow a (ib + ob)

theorem and_shiftLeft_eq_zero {x : Nat} (k y : Nat) (hx : x < 2 ^ k) :
    x &&& (y <<< k) = 0 := by
  apply Nat.eq_of_testBit_eq
  intro j
  simp only [Nat.testBit_and, Nat.testBit_shiftLeft, Nat.zero_testBit]
  rcases Nat.lt_or_ge j k with h | h
  · have hk : ¬ (j ≥ k) := Nat.not_le.mpr h
    simp [hk]
  · have hxj : x.testBit j = false :=
      Nat.testBit_lt_two_pow (Nat.lt_of_lt_of_le hx (Nat.pow_le_pow_right (by decide) h))
    simp [hxj]

/-- C1: Partition round-trip of address decomposition — for every address and
every geometry (offset bit-width `ob`, index bit-width `ib`, masks derived as
in the source), `offset | (index << ob) | (tag << (ob+ib))` reconstructs the
address exactly, and the three bit-fields are pairwise disjoint. -/
theorem C1_partition_roundtrip (a ib ob : Nat) :
    (calculate_offset a (calculate_offset_mask ob) |||
        calculate_index a (calculate_index_mask ib ob) ob <<< ob |||
        calculate_tag a ib ob <<< (ob + ib)) = a ∧
    calculate_offset a (calculate_offset_mask ob) &&&
        (calculate_index a (calculate_index_mask ib ob) ob <<< ob) = 0 ∧
    calculate_offset a (calculate_offset_mask ob) &&&
        (calculate_tag a ib ob <<< (ob + ib)) = 0 ∧
    (calculate_index a (calculate_index_mask ib ob) ob <<< ob) &&&
        (calculate_tag a ib ob <<< (ob + ib)) = 0 := by
  rw [calculate_offset_eq_mod, calculate_index_eq_mod, calculate_tag_eq_div]
  have ho : a % 2 ^ ob < 2 ^ ob := Nat.mod_lt _ (Nat.two_pow_pos ob)
  have hi : a / 2 ^ ob % 2 ^ ib < 2 ^ ib := Nat.mod_lt _ (Nat.two_pow_pos ib)
  have hpow : 2 ^ (ob + ib) = 2 ^ ob * 2 ^ ib := Nat.pow_add 2 ob ib
  have hshl : ∀ x k : Nat, x <<< k = x * 2 ^ k := Nat.shiftLeft_eq
  have hib : (a / 2 ^ ob % 2 ^ ib) <<< ob < 2 ^ (ob + ib) := by
    rw [hshl, hpow]
    calc a / 2 ^ ob % 2 ^ ib * 2 ^ ob < 2 ^ ib * 2 ^ ob :=
          (Nat.mul_lt_mul_right (Nat.two_pow_pos ob)).mpr hi
      _ = 2 ^ ob * 2 ^ ib := Nat.mul_comm _ _
  have hsumlt : 2 ^ ob * (a / 2 ^ ob % 2 ^ ib) + a % 2 ^ ob < 2 ^ (ob + ib) := by
    have h1 : a / 2 ^ ob % 2 ^ ib ≤ 2 ^ ib - 1 := by omega
    have h2 : 2 ^ ob * (a / 2 ^ ob % 2 ^ ib) ≤ 2 ^ ob * (2 ^ ib - 1) :=
      Nat.mul_le_mul_left _ h1
    have h4 : 2 ^ ob * (2 ^ ib - 1) = 2 ^ ob * 2 ^ ib - 2 ^ ob := by
      rw [Nat.mul_sub, Nat.mul_one]
    have h5 : 2 ^ ob ≤ 2 ^ ob * 2 ^ ib := Nat.le_mul_of_pos_right _ (Nat.two_pow_pos ib)
    omega
  refine ⟨?_, ?_, ?_, ?_⟩
  · have e1 : (a % 2 ^ ob) ||| ((a / 2 ^ ob % 2 ^ ib) <<< ob) =
        2 ^ ob * (a / 2 ^ ob % 2 ^ ib) + a % 2 ^ ob := by
      rw [hshl, Nat.mul_comm _ (2 ^ ob), Nat.or_comm]
      exact (Nat.mul_add_lt_is_or ho _).symm
    rw [e1]
    have e2 : (2 ^ ob * (a / 2 ^ ob % 2 ^ ib) + a % 2 ^ ob) |||
        (a / 2 ^ (ib + ob)) <<< (ob + ib) =
        2 ^ (ob + ib) * (a / 2 ^ (ib + ob)) +
          (2 ^ ob * (a / 2 ^ ob % 2 ^ ib) + a % 2 ^ ob) := by
      rw [hshl, Nat.mul_comm _ (2 ^ (ob + ib)), Nat.or_comm]
      exact (Nat.mul_add_lt_is_or hsumlt _).symm
    rw [e2]
    have hq : a / 2 ^ (ib + ob) = a / 2 ^ ob / 2 ^ ib := by
      rw [Nat.div_div_eq_div_mul, ← Nat.pow_add, Nat.add_comm ob ib]
    rw [hq, hpow]
    have h1 : 2 ^ ob * (a / 2 ^ ob) + a % 2 ^ ob = a := Nat.div_add_mod a (2 ^ ob)
    have h2 : 2 ^ ib * (a / 2 ^ ob / 2 ^ ib) + a / 2 ^ ob % 2 ^ ib = a / 2 ^ ob :=
      Nat.div_add_mod (a / 2 ^ ob) (2 ^ ib)
    have h3 : 2 ^ ob * 2 ^ ib * (a / 2 ^ ob / 2 ^ ib) +
        2 ^ ob * (a / 2 ^ ob % 2 ^ ib) = 2 ^ ob * (a / 2 ^ ob) := by
      rw [Nat.mul_assoc, ← Nat.mul_add, h2]
    omega
  · exact and_shiftLeft_eq_zero ob _ ho
  · exact and_shiftLeft_eq_zero (ob + ib) _
      (Nat.lt_of_lt_of_le ho (Nat.pow_le_pow_right (by decide) (Nat.le_add_right ob ib)))
  · exact and_shiftLeft_eq_zero (ob + ib) _ hib

/-! Geometry derivation (claim C4). -/

theorem calculate_index_size_pow (n : Nat) : calculate_index_size (2 ^ n) = n := by
  unfold calculate_index_size
  exact Nat.log2_two_pow

theorem calculate_offset_size_pow (n : Nat) : calculate_offset_size (2 ^ n) = n := by
  unfold calculate_offset_size
  exact Nat.log2_two_pow

/-- C4 counterexample: for `(totalCacheSize, lineSize, setSize) = (100, 8, 3)`
the source's truncating integer division yields `numberOfSets = 4 = 2 ^ 2`, a
positive power of two, and the derivation proceeds normally (index size 2,
offset size 3) — contradicting the claim that this configuration yields a
non-power-of-two set count and fails with a `ConfigError`. -/
theorem C4_counterexample :
    calculate_number_of_sets 100 8 3 0 = 2 ^ 2 ∧
    calculate_index_size (calculate_number_of_sets 100 8 3 0) = 2 ∧
    calculate_offset_size 8 = 3 := by
  refine ⟨by decide, ?_, ?_⟩
  · have h : calculate_number_of_sets 100 8 3 0 = 2 ^ 2 := by decide
    rw [h, calculate_index_size_pow]
  · have h8 : (8 : Nat) = 2 ^ 3 := by norm_num
    rw [h8, calculate_offset_size_pow]

/-- C4 (amended): `calculate_number_of_sets` performs no validation and raises
no error: when `lineSize` and `setSize` are nonzero it computes
`(totalCacheSize / lineSize) / setSize` with truncating division, and when
either is zero it merely leaves `numberOfSets` at its previous value.  For
`(100, 8, 3)` this yields 4 sets (a power of two after truncation); for
`(1024, 32, 4)` it yields 8 sets with `offsetBits = 5` and `indexBits = 3`. -/
theorem C4_geometry_behavior (t l s n0 : Nat) (hl : l ≠ 0) (hs : s ≠ 0) :
    calculate_number_of_sets t l s n0 = t / l / s ∧
    (∀ t0 n1 : Nat, calculate_number_of_sets t0 0 s n1 = n1) ∧
    (∀ t0 n1 : Nat, calculate_number_of_sets t0 l 0 n1 = n1) ∧
    calculate_number_of_sets 100 8 3 n0 = 4 ∧
    calculate_number_of_sets 1024 32 4 n0 = 8 ∧
    calculate_index_size 8 = 3 ∧
    calculate_offset_size 32 = 5 := by
  refine ⟨?_, ?_, ?_, ?_, ?_,
    by rw [show (8 : Nat) = 2 ^ 3 by norm_num, calculate_index_size_pow],
    by rw [show (32 : Nat) = 2 ^ 5 by norm_num, calculate_offset_size_pow]⟩
  · unfold calculate_number_of_sets
    rw [if_pos ⟨hl, hs⟩]
  · intro t0 n1
    simp [calculate_number_of_sets]
  · intro t0 n1
    simp [calculate_number_of_sets]
  · simp [calculate_number_of_sets]
  · simp [calculate_number_of_sets]

theorem C4_geometry_behavior_witness :
    (8 : Nat) ≠ 0 ∧ (3 : Nat) ≠ 0 ∧
    calculate_number_of_sets 100 8 3 0 = 100 / 8 / 3 :=
  ⟨by decide, by decide, (C4_geometry_behavior 100 8 3 0 (by decide) (by decide)).1⟩

/-! Insertion into a non-full set (claim C7). -/

/-- C7: for every set holding fewer than `setSize` lines,
`update_cache_lines tag` appends a new line with LRU counter 0 and leaves
every previously resident line — tag and recency — exactly unchanged. -/
theorem C7_insert_no_aging (s : CacheSet) (t : Nat)
    (h : s.cacheLine.length < s.setSize) :
    s.update_cache_lines t =
      { s with cacheLine := s.cacheLine ++ [{ tag := t, LRUFlag := 0 }] } := by
  unfold CacheSet.update_cache_lines CacheSet.add_new_cache_line
  rw [if_pos h]

theorem C7_insert_no_aging_witness :
    (CacheSet.cacheLine ⟨2, 0, [⟨5, 3⟩]⟩).length < CacheSet.setSize ⟨2, 0, [⟨5, 3⟩]⟩ ∧
    CacheSet.update_cache_lines ⟨2, 0, [⟨5, 3⟩]⟩ 7 = ⟨2, 0, [⟨5, 3⟩, ⟨7, 0⟩]⟩ :=
  ⟨by decide, by rw [C7_insert_no_aging _ 7 (by decide)]; decide⟩

/-! Hit semantics (claim C2). -/

theorem forall2_incr_of_not_mem (t : Nat) (ls : List CacheLine)
    (h : t ∉ ls.map CacheLine.tag) :
    List.Forall₂ (fun l2 l1 => l2.tag = l1.tag ∧
      l2.LRUFlag = if l1.tag = t then 0 else l1.LRUFlag + 1)
      (ls.map increment_LRU) ls := by
  induction ls with
  | nil => exact List.Forall₂.nil
  | cons l ls ih =>
    simp only [List.map_cons, List.mem_cons, not_or] at h
    refine List.Forall₂.cons ⟨rfl, ?_⟩ (ih h.2)
    rw [if_neg fun hh => h.1 hh.symm]
    rfl

theorem check_lines_hit (t : Nat) (ls : List CacheLine)
    (hmem : t ∈ ls.map CacheLine.tag) (hnd : (ls.map CacheLine.tag).Nodup) :
    ∃ i, CacheSet.find_tag_pos t ls = some i ∧
      List.Forall₂ (fun l2 l1 => l2.tag = l1.tag ∧
        l2.LRUFlag = if l1.tag = t then 0 else l1.LRUFlag + 1)
        (CacheSet.set_LRU_at (ls.map increment_LRU) i) ls := by
  induction ls with
  | nil => simp at hmem
  | cons l ls ih =>
    simp only [List.map_cons, List.nodup_cons] at hnd
    by_cases hl : l.tag = t
    · refine ⟨0, by simp [CacheSet.find_tag_pos, hl], ?_⟩
      simp only [List.map_cons, CacheSet.set_LRU_at]
      refine List.Forall₂.cons ⟨rfl, by rw [if_pos hl]⟩ ?_
      exact forall2_incr_of_not_mem t ls (hl ▸ hnd.1)
    · have hmem2 : t ∈ ls.map CacheLine.tag := by
        simp only [List.map_cons, List.mem_cons] at hmem
        rcases hmem with h | h
        · exact absurd h.symm hl
        · exact h
      obtain ⟨i, hfind, hrel⟩ := ih hmem2 hnd.2
      refine ⟨i + 1, by simp [CacheSet.find_tag_pos, hl, hfind], ?_⟩
      simp only [List.map_cons, CacheSet.set_LRU_at]
      exact List.Forall₂.cons ⟨rfl, by rw [if_neg hl]; rfl⟩ hrel

theorem forall2_tag_eq {t : Nat} {xs ys : List CacheLine}
    (h : List.Forall₂ (fun l2 l1 => l2.tag = l1.tag ∧
      l2.LRUFlag = if l1.tag = t then 0 else l1.LRUFlag + 1) xs ys) :
    xs.map CacheLine.tag = ys.map CacheLine.tag := by
  induction h with
  | nil => rfl
  | cons hhd _ ih => simp only [List.map_cons, hhd.1, ih]

/-- C2: LRU hit semantics — for every set state (with pairwise distinct
resident tags, as every reachable set has) and every resident tag,
`check_cache_lines` reports a hit, resets the matching line's recency to 0,
increments every other line's recency by exactly 1, and leaves the occupancy
and the (ordered, hence also multiset of) resident tags unchanged. -/
theorem C2_hit_semantics (s : CacheSet) (t : Nat)
    (hmem : t ∈ s.cacheLine.map CacheLine.tag)
    (hnd : (s.cacheLine.map CacheLine.tag).Nodup) :
    (s.check_cache_lines t).1 = true ∧
    (s.check_cache_lines t).2.setSize = s.setSize ∧
    (s.check_cache_lines t).2.cacheLine.map CacheLine.tag =
      s.cacheLine.map CacheLine.tag ∧
    (s.check_cache_lines t).2.cacheLine.length = s.cacheLine.length ∧
    List.Forall₂ (fun l2 l1 => l2.tag = l1.tag ∧
      l2.LRUFlag = if l1.tag = t then 0 else l1.LRUFlag + 1)
      (s.check_cache_lines t).2.cacheLine s.cacheLine := by
  obtain ⟨i, hfind, hrel⟩ := check_lines_hit t s.cacheLine hmem hnd
  have hc : s.check_cache_lines t =
      (true, { s with
        cacheLine := CacheSet.set_LRU_at (s.cacheLine.map increment_LRU) i }) := by
    unfold CacheSet.check_cache_lines
    rw [hfind]
  rw [hc]
  exact ⟨rfl, rfl, forall2_tag_eq hrel, hrel.length_eq, hrel⟩

theorem C2_hit_semantics_witness :
    (9 ∈ (CacheSet.cacheLine ⟨2, 0, [⟨4, 5⟩, ⟨9, 2⟩]⟩).map CacheLine.tag) ∧
    ((CacheSet.cacheLine ⟨2, 0, [⟨4, 5⟩, ⟨9, 2⟩]⟩).map CacheLine.tag).Nodup ∧
    ((CacheSet.check_cache_lines ⟨2, 0, [⟨4, 5⟩, ⟨9, 2⟩]⟩ 9).1 = true ∧
      (CacheSet.check_cache_lines ⟨2, 0, [⟨4, 5⟩, ⟨9, 2⟩]⟩ 9).2.setSize =
        CacheSet.setSize ⟨2, 0, [⟨4, 5⟩, ⟨9, 2⟩]⟩ ∧
      (CacheSet.check_cache_lines ⟨2, 0, [⟨4, 5⟩, ⟨9, 2⟩]⟩ 9).2.cacheLine.map CacheLine.tag =
        (CacheSet.cacheLine ⟨2, 0, [⟨4, 5⟩, ⟨9, 2⟩]⟩).map CacheLine.tag ∧
      (CacheSet.check_cache_lines ⟨2, 0, [⟨4, 5⟩, ⟨9, 2⟩]⟩ 9).2.cacheLine.length =
        (CacheSet.cacheLine ⟨2, 0, [⟨4, 5⟩, ⟨9, 2⟩]⟩).length ∧
      List.Forall₂ (fun l2 l1 => l2.tag = l1.tag ∧
        l2.LRUFlag = if l1.tag = 9 then 0 else l1.LRUFlag + 1)
        (CacheSet.check_cache_lines ⟨2, 0, [⟨4, 5⟩, ⟨9, 2⟩]⟩ 9).2.cacheLine
        (CacheSet.cacheLine ⟨2, 0, [⟨4, 5⟩, ⟨9, 2⟩]⟩)) :=
  ⟨by decide, by decide,
    C2_hit_semantics ⟨2, 0, [⟨4, 5⟩, ⟨9, 2⟩]⟩ 9 (by decide) (by decide)⟩

/-! Full-set replacement (claim C3). -/

theorem replace_line_at_length (t : Nat) (ls : List CacheLine) (i : Nat) :
    (CacheSet.replace_line_at t ls i).length = ls.length := by
  induction ls generalizing i with
  | nil => rfl
  | cons l ls ih =>
    cases i with
    | zero => rfl
    | succ i => simp [CacheSet.replace_line_at, ih]

theorem replace_line_at_getD_self (t : Nat) (ls : List CacheLine) (i : Nat)
    (d : CacheLine) (h : i < ls.length) :
    (CacheSet.replace_line_at t ls i).getD i d = ⟨t, 0⟩ := by
  induction ls generalizing i with
  | nil => simp at h
  | cons l ls ih =>
    cases i with
    | zero => rfl
    | succ i =>
      simp only [List.length_cons, Nat.succ_lt_succ_iff] at h
      simpa [CacheSet.replace_line_at] using ih i h

theorem replace_line_at_getD_ne (t : Nat) (ls : List CacheLine) (i k : Nat)
    (d : CacheLine) (h : k ≠ i) :
    (CacheSet.replace_line_at t ls i).getD k d = ls.getD k d := by
  induction ls generalizing i k with
  | nil => rfl
  | cons l ls ih =>
    cases i with
    | zero =>
      cases k with
      | zero => exact absurd rfl h
      | succ k => rfl
    | succ i =>
      cases k with
      | zero => rfl
      | succ k =>
        simpa [CacheSet.replace_line_at] using ih i k fun hk => h (by rw [hk])

theorem getD_map_incr (ls : List CacheLine) (k : Nat) (d : CacheLine)
    (h : k < ls.length) :
    (ls.map increment_LRU).getD k d = increment_LRU (ls.getD k d) := by
  induction ls generalizing k with
  | nil => simp at h
  | cons l ls ih =>
    cases k with
    | zero => rfl
    | succ k =>
      simp only [List.length_cons, Nat.succ_lt_succ_iff] at h
      simpa using ih k h

theorem getD_mem_of_lt (ls : List CacheLine) (k : Nat) (d : CacheLine)
    (h : k < ls.length) : ls.getD k d ∈ ls := by
  induction ls generalizing k with
  | nil => simp at h
  | cons l ls ih =>
    cases k with
    | zero => exact List.mem_cons_self l ls
    | succ k =>
      simp only [List.length_cons, Nat.succ_lt_succ_iff] at h
      exact List.mem_cons_of_mem l (ih k h)

theorem find_LRU_from_spec (ls : List CacheLine) (best bestLRU pos : Nat)
    (d : CacheLine) :
    ((∀ l ∈ ls, l.LRUFlag ≤ bestLRU) ∧
      CacheSet.find_LRU_from best bestLRU pos ls = best) ∨
    (∃ j, j < ls.length ∧
      CacheSet.find_LRU_from best bestLRU pos ls = pos + j ∧
      bestLRU < (ls.getD j d).LRUFlag ∧
      (∀ k, k < j → (ls.getD k d).LRUFlag < (ls.getD j d).LRUFlag) ∧
      (∀ k, k < ls.length → (ls.getD k d).LRUFlag ≤ (ls.getD j d).LRUFlag)) := by
  induction ls generalizing best bestLRU pos with
  | nil => exact Or.inl ⟨by simp, rfl⟩
  | cons l ls ih =>
    by_cases hl : bestLRU < l.LRUFlag
    · have hstep : CacheSet.find_LRU_from best bestLRU pos (l :: ls) =
          CacheSet.find_LRU_from pos l.LRUFlag (pos + 1) ls := by
        simp [CacheSet.find_LRU_from, hl]
      rcases ih pos l.LRUFlag (pos + 1) with ⟨hall, heq⟩ | ⟨j, hj, heq, hgt, hlt, hle⟩
      · refine Or.inr ⟨0, by simp, by rw [hstep, heq, Nat.add_zero], by simpa using hl,
          ?_, ?_⟩
        · intro k hk
          exact absurd hk (Nat.not_lt_zero k)
        · intro k hk
          cases k with
          | zero => exact Nat.le_refl _
          | succ k =>
            simp only [List.length_cons, Nat.succ_lt_succ_iff] at hk
            simp only [List.getD_cons_succ, List.getD_cons_zero]
            exact hall _ (getD_mem_of_lt ls k d hk)
      · refine Or.inr ⟨j + 1, by simpa using Nat.succ_lt_succ hj,
          by rw [hstep, heq]; omega, ?_, ?_, ?_⟩
        · simp only [List.getD_cons_succ]
          exact Nat.lt_trans hl hgt
        · intro k hk
          cases k with
          | zero =>
            simp only [List.getD_cons_succ, List.getD_cons_zero]
            exact hgt
          | succ k =>
            simp only [List.getD_cons_succ]
            exact hlt k (by omega)
        · intro k hk
          cases k with
          | zero =>
            simp only [List.getD_cons_succ, List.getD_cons_zero]
            exact Nat.le_of_lt hgt
          | succ k =>
            simp only [List.length_cons, Nat.succ_lt_succ_iff] at hk
            simp only [List.getD_cons_succ]
            exact hle k hk
    · have hstep : CacheSet.find_LRU_from best bestLRU pos (l :: ls) =
          CacheSet.find_LRU_from best bestLRU (pos + 1) ls := by
        simp [CacheSet.find_LRU_from, hl]
      have hlle : l.LRUFlag ≤ bestLRU := Nat.not_lt.mp hl
      rcases ih best bestLRU (pos + 1) with ⟨hall, heq⟩ | ⟨j, hj, heq, hgt, hlt, hle⟩
      · refine Or.inl ⟨?_, by rw [hstep, heq]⟩
        intro x hx
        rcases List.mem_cons.mp hx with h | h
        · rw [h]
          exact hlle
        · exact hall x h
      · refine Or.inr ⟨j + 1, by simpa using Nat.succ_lt_succ hj,
          by rw [hstep, heq]; omega, ?_, ?_, ?_⟩
        · simp only [List.getD_cons_succ]
          exact hgt
        · intro k hk
          cases k with
          | zero =>
            simp only [List.getD_cons_succ, List.getD_cons_zero]
            exact Nat.lt_of_le_of_lt hlle hgt
          | succ k =>
            simp only [List.getD_cons_succ]
            exact hlt k (by omega)
        · intro k hk
          cases k with
          | zero =>
            simp only [List.getD_cons_succ, List.getD_cons_zero]
            exact Nat.le_of_lt (Nat.lt_of_le_of_lt hlle hgt)
          | succ k =>
            simp only [List.length_cons, Nat.succ_lt_succ_iff] at hk
            simp only [List.getD_cons_succ]
            exact hle k hk

theorem find_LRU_spec (s : CacheSet) (d : CacheLine) (hne : s.cacheLine ≠ []) :
    s.find_LRU < s.cacheLine.length ∧
    (∀ k, k < s.cacheLine.length →
      (s.cacheLine.getD k d).LRUFlag ≤ (s.cacheLine.getD s.find_LRU d).LRUFlag) ∧
    (∀ k, k < s.find_LRU →
      (s.cacheLine.getD k d).LRUFlag < (s.cacheLine.getD s.find_LRU d).LRUFlag) := by
  obtain ⟨l, ls, hls⟩ : ∃ l ls, s.cacheLine = l :: ls := by
    cases h : s.cacheLine with
    | nil => exact absurd h hne
    | cons l ls => exact ⟨l, ls, rfl⟩
  have hfl : s.find_LRU = CacheSet.find_LRU_from 0 l.LRUFlag 1 ls := by
    unfold CacheSet.find_LRU
    rw [hls]
  rw [hls, hfl]
  rcases find_LRU_from_spec ls 0 l.LRUFlag 1 d with ⟨hall, heq⟩ | ⟨j, hj, heq, hgt, hlt, hle⟩
  · rw [heq]
    refine ⟨by simp, ?_, ?_⟩
    · intro k hk
      cases k with
      | zero => exact Nat.le_refl _
      | succ k =>
        simp only [List.length_cons, Nat.succ_lt_succ_iff] at hk
        simp only [List.getD_cons_succ, List.getD_cons_zero]
        exact hall _ (getD_mem_of_lt ls k d hk)
    · intro k hk
      exact absurd hk (Nat.not_lt_zero k)
  · rw [heq]
    have h1j : 1 + j = j + 1 := Nat.add_comm 1 j
    rw [h1j]
    refine ⟨by simpa using Nat.succ_lt_succ hj, ?_, ?_⟩
    · intro k hk
      cases k with
      | zero =>
        simp only [List.getD_cons_succ, List.getD_cons_zero]
        exact Nat.le_of_lt hgt
      | succ k =>
        simp only [List.length_cons, Nat.succ_lt_succ_iff] at hk
        simp only [List.getD_cons_succ]
        exact hle k hk
    · intro k hk
      cases k with
      | zero =>
        simp only [List.getD_cons_succ, List.getD_cons_zero]
        exact hgt
      | succ k =>
        simp only [List.getD_cons_succ]
        exact hlt k (by omega)

/-- C3: Full-set replacement — on a full set, `update_cache_lines` picks as
victim the line at position `find_LRU`, which carries the maximum recency
value with ties broken in favor of the first such line in iteration order;
it increments the recency of every other line by 1, overwrites the victim
with the new tag at recency 0, and keeps the occupancy at `setSize`. -/
theorem C3_full_replacement (s : CacheSet) (t : Nat)
    (hfull : s.cacheLine.length = s.setSize) (hpos : 0 < s.setSize) :
    s.find_LRU < s.cacheLine.length ∧
    (∀ k, k < s.cacheLine.length →
      (s.cacheLine.getD k ⟨0, 0⟩).LRUFlag ≤
        (s.cacheLine.getD s.find_LRU ⟨0, 0⟩).LRUFlag) ∧
    (∀ k, k < s.find_LRU →
      (s.cacheLine.getD k ⟨0, 0⟩).LRUFlag <
        (s.cacheLine.getD s.find_LRU ⟨0, 0⟩).LRUFlag) ∧
    (s.update_cache_lines t).setSize = s.setSize ∧
    (s.update_cache_lines t).cacheLine.length = s.setSize ∧
    (s.update_cache_lines t).cacheLine.getD s.find_LRU ⟨0, 0⟩ = ⟨t, 0⟩ ∧
    (∀ k, k < s.cacheLine.length → k ≠ s.find_LRU →
      (s.update_cache_lines t).cacheLine.getD k ⟨0, 0⟩ =
        increment_LRU (s.cacheLine.getD k ⟨0, 0⟩)) := by
  have hne : s.cacheLine ≠ [] := by
    intro h
    rw [h] at hfull
    simp at hfull
    omega
  obtain ⟨hv, hmax, hfirst⟩ := find_LRU_spec s ⟨0, 0⟩ hne
  have hupd : s.update_cache_lines t =
      { s with cacheLine :=
          CacheSet.replace_line_at t (s.cacheLine.map increment_LRU) s.find_LRU } := by
    unfold CacheSet.update_cache_lines
    rw [if_neg (by omega)]
  refine ⟨hv, hmax, hfirst, by rw [hupd], ?_, ?_, ?_⟩
  · rw [hupd]
    show (CacheSet.replace_line_at t (s.cacheLine.map increment_LRU)
      s.find_LRU).length = s.setSize
    rw [replace_line_at_length, List.length_map, hfull]
  · rw [hupd]
    show (CacheSet.replace_line_at t (s.cacheLine.map increment_LRU)
        s.find_LRU).getD s.find_LRU ⟨0, 0⟩ = ⟨t, 0⟩
    rw [replace_line_at_getD_self]
    rw [List.length_map]
    exact hv
  · intro k hk hkne
    rw [hupd]
    show (CacheSet.replace_line_at t (s.cacheLine.map increment_LRU)
        s.find_LRU).getD k ⟨0, 0⟩ = increment_LRU (s.cacheLine.getD k ⟨0, 0⟩)
    rw [replace_line_at_getD_ne _ _ _ _ _ hkne, getD_map_incr _ _ _ hk]

theorem C3_full_replacement_witness :
    (CacheSet.cacheLine ⟨2, 0, [⟨4, 1⟩, ⟨9, 1⟩]⟩).length =
      CacheSet.setSize ⟨2, 0, [⟨4, 1⟩, ⟨9, 1⟩]⟩ ∧
    0 < CacheSet.setSize ⟨2, 0, [⟨4, 1⟩, ⟨9, 1⟩]⟩ ∧
    (CacheSet.find_LRU ⟨2, 0, [⟨4, 1⟩, ⟨9, 1⟩]⟩ <
      (CacheSet.cacheLine ⟨2, 0, [⟨4, 1⟩, ⟨9, 1⟩]⟩).length ∧
    (∀ k, k < (CacheSet.cacheLine ⟨2, 0, [⟨4, 1⟩, ⟨9, 1⟩]⟩).length →
      ((CacheSet.cacheLine ⟨2, 0, [⟨4, 1⟩, ⟨9, 1⟩]⟩).getD k ⟨0, 0⟩).LRUFlag ≤
        ((CacheSet.cacheLine ⟨2, 0, [⟨4, 1⟩, ⟨9, 1⟩]⟩).getD
          (CacheSet.find_LRU ⟨2, 0, [⟨4, 1⟩, ⟨9, 1⟩]⟩) ⟨0, 0⟩).LRUFlag) ∧
    (∀ k, k < CacheSet.find_LRU ⟨2, 0, [⟨4, 1⟩, ⟨9, 1⟩]⟩ →
      ((CacheSet.cacheLine ⟨2, 0, [⟨4, 1⟩, ⟨9, 1⟩]⟩).getD k ⟨0, 0⟩).LRUFlag <
        ((CacheSet.cacheLine ⟨2, 0, [⟨4, 1⟩, ⟨9, 1⟩]⟩).getD
          (CacheSet.find_LRU ⟨2, 0, [⟨4, 1⟩, ⟨9, 1⟩]⟩) ⟨0, 0⟩).LRUFlag) ∧
    (CacheSet.update_cache_lines ⟨2, 0, [⟨4, 1⟩, ⟨9, 1⟩]⟩ 7).setSize =
      CacheSet.setSize ⟨2, 0, [⟨4, 1⟩, ⟨9, 1⟩]⟩ ∧
    (CacheSet.update_cache_lines ⟨2, 0, [⟨4, 1⟩, ⟨9, 1⟩]⟩ 7).cacheLine.length =
      CacheSet.setSize ⟨2, 0, [⟨4, 1⟩, ⟨9, 1⟩]⟩ ∧
    (CacheSet.update_cache_lines ⟨2, 0, [⟨4, 1⟩, ⟨9, 1⟩]⟩ 7).cacheLine.getD
      (CacheSet.find_LRU ⟨2, 0, [⟨4, 1⟩, ⟨9, 1⟩]⟩) ⟨0, 0⟩ = ⟨7, 0⟩ ∧
    (∀ k, k < (CacheSet.cacheLine ⟨2, 0, [⟨4, 1⟩, ⟨9, 1⟩]⟩).length →
      k ≠ CacheSet.find_LRU ⟨2, 0, [⟨4, 1⟩, ⟨9, 1⟩]⟩ →
      (CacheSet.update_cache_lines ⟨2, 0, [⟨4, 1⟩, ⟨9, 1⟩]⟩ 7).cacheLine.getD k ⟨0, 0⟩ =
        increment_LRU ((CacheSet.cacheLine ⟨2, 0, [⟨4, 1⟩, ⟨9, 1⟩]⟩).getD k ⟨0, 0⟩))) :=
  ⟨by decide, by decide,
    C3_full_replacement ⟨2, 0, [⟨4, 1⟩, ⟨9, 1⟩]⟩ 7 (by decide) (by decide)⟩

/-! Out-of-range index behavior (claim C9). -/

theorem probe_sets_no_match (i t : Nat) (sets : List CacheSet)
    (h : ∀ s ∈ sets, i ≠ s.index) :
    CacheTable.probe_sets i t sets = (false, sets) := by
  induction sets with
  | nil => rfl
  | cons s rest ih =>
    have hs : i ≠ s.index := h s (List.mem_cons_self s rest)
    have hr := ih fun x hx => h x (List.mem_cons_of_mem s hx)
    simp [CacheTable.probe_sets, hs, hr]

/-- C9 counterexample: with a single set (index 0) and the out-of-range index
5, `determine_hit_or_miss` silently classifies the reference as a Miss —
`totalMiss` is incremented, the set is untouched — and a subsequent reference
is still processed; nothing fatal happens. -/
theorem C9_counterexample :
    CacheTable.determine_hit_or_miss (initial_table 1 1) 5 7 =
      (false, { initial_table 1 1 with totalMiss := 1 }) ∧
    CacheTable.read_mem_trace (initial_table 1 1) [(5, 7), (0, 9)] =
      { cacheSet := [⟨1, 0, [⟨9, 0⟩]⟩], memRefHM := [false, false],
        totalHits := 0, totalMiss := 2, totalAccess := 2 } := by decide

/-- C9 (amended): when the decomposed index matches no set,
`determine_hit_or_miss` silently classifies the reference as a Miss,
incrementing `totalMiss` and changing no set; no error is raised and the run
continues with subsequent references. -/
theorem C9_out_of_range_is_silent_miss (c : CacheTable) (i t : Nat)
    (h : ∀ s ∈ c.cacheSet, i ≠ s.index) :
    c.determine_hit_or_miss i t =
      (false, { c with totalMiss := c.totalMiss + 1 }) := by
  unfold CacheTable.determine_hit_or_miss
  rw [probe_sets_no_match i t c.cacheSet h]
  simp

theorem C9_out_of_range_is_silent_miss_witness :
    (∀ s ∈ (initial_table 1 1).cacheSet, 5 ≠ s.index) ∧
    (initial_table 1 1).determine_hit_or_miss 5 7 =
      (false, { initial_table 1 1 with
                  totalMiss := (initial_table 1 1).totalMiss + 1 }) :=
  ⟨by decide, C9_out_of_range_is_silent_miss _ 5 7 (by decide)⟩

/-! Totals accounting (claim C6). -/

theorem process_ref_counters (c : CacheTable) (i t : Nat) :
    (c.process_ref i t).totalAccess = c.totalAccess + 1 ∧
    ((c.process_ref i t).totalHits = c.totalHits + 1 ∧
        (c.process_ref i t).totalMiss = c.totalMiss ∨
      (c.process_ref i t).totalHits = c.totalHits ∧
        (c.process_ref i t).totalMiss = c.totalMiss + 1) := by
  unfold CacheTable.process_ref CacheTable.determine_hit_or_miss
  cases hb : (CacheTable.probe_sets i t c.cacheSet).1 <;> simp [hb]

theorem read_mem_trace_counters (refs : List (Nat × Nat)) (c : CacheTable) :
    (c.read_mem_trace refs).totalAccess = c.totalAccess + refs.length ∧
    (c.read_mem_trace refs).totalHits + (c.read_mem_trace refs).totalMiss =
      c.totalHits + c.totalMiss + refs.length ∧
    c.totalHits ≤ (c.read_mem_trace refs).totalHits ∧
    c.totalMiss ≤ (c.read_mem_trace refs).totalMiss := by
  induction refs generalizing c with
  | nil => simp [CacheTable.read_mem_trace]
  | cons r rest ih =>
    obtain ⟨i, t⟩ := r
    have hstep := process_ref_counters c i t
    have hrec := ih (c.process_ref i t)
    have hunf : c.read_mem_trace ((i, t) :: rest) =
        (c.process_ref i t).read_mem_trace rest := rfl
    rw [hunf]
    simp only [List.length_cons]
    omega

/-- C6: Totals accounting — starting from any state whose counters satisfy
`totalHits + totalMiss = totalAccess` (in particular the zeroed initial
state), the equation still holds after processing any reference sequence;
`totalAccess` grows by exactly the trace length, all counters are monotone,
and each single `process_ref` step increments `totalAccess` exactly once and
exactly one of `totalHits`/`totalMiss` exactly once. -/
theorem C6_totals (refs : List (Nat × Nat)) (c : CacheTable)
    (h : c.totalHits + c.totalMiss = c.totalAccess) :
    (c.read_mem_trace refs).totalHits + (c.read_mem_trace refs).totalMiss =
      (c.read_mem_trace refs).totalAccess ∧
    (c.read_mem_trace refs).totalAccess = c.totalAccess + refs.length ∧
    c.totalHits ≤ (c.read_mem_trace refs).totalHits ∧
    c.totalMiss ≤ (c.read_mem_trace refs).totalMiss ∧
    (∀ c2 : CacheTable, ∀ i t : Nat,
      (c2.process_ref i t).totalAccess = c2.totalAccess + 1 ∧
      ((c2.process_ref i t).totalHits = c2.totalHits + 1 ∧
          (c2.process_ref i t).totalMiss = c2.totalMiss ∨
        (c2.process_ref i t).totalHits = c2.totalHits ∧
          (c2.process_ref i t).totalMiss = c2.totalMiss + 1)) := by
  have hr := read_mem_trace_counters refs c
  exact ⟨by omega, hr.1, hr.2.2.1, hr.2.2.2, fun c2 i t => process_ref_counters c2 i t⟩

theorem C6_totals_witness :
    (initial_table 1 2).totalHits + (initial_table 1 2).totalMiss =
      (initial_table 1 2).totalAccess ∧
    (CacheTable.read_mem_trace (initial_table 1 2) [(0, 3), (0, 3), (1, 4)]).totalHits +
      (CacheTable.read_mem_trace (initial_table 1 2) [(0, 3), (0, 3), (1, 4)]).totalMiss =
      (CacheTable.read_mem_trace (initial_table 1 2) [(0, 3), (0, 3), (1, 4)]).totalAccess :=
  ⟨by decide, (C6_totals [(0, 3), (0, 3), (1, 4)] (initial_table 1 2) (by decide)).1⟩

/-! Structural set invariant (claim C8). -/

/-- The per-set structural invariant: occupancy never exceeds the capacity and
resident tags are pairwise distinct. -/
def SetInv (s : CacheSet) : Prop :=
  s.cacheLine.length ≤ s.setSize ∧ (s.cacheLine.map CacheLine.tag).Nodup

theorem set_LRU_at_length (xs : List CacheLine) (i : Nat) :
    (CacheSet.set_LRU_at xs i).length = xs.length := by
  induction xs generalizing i with
  | nil => rfl
  | cons l ls ih =>
    cases i with
    | zero => rfl
    | succ i => simp [CacheSet.set_LRU_at, ih]

theorem map_tag_set_LRU_at (xs : List CacheLine) (i : Nat) :
    (CacheSet.set_LRU_at xs i).map CacheLine.tag = xs.map CacheLine.tag := by
  induction xs generalizing i with
  | nil => rfl
  | cons l ls ih =>
    cases i with
    | zero => rfl
    | succ i => simp [CacheSet.set_LRU_at, ih]

theorem map_tag_map_incr (ls : List CacheLine) :
    (ls.map increment_LRU).map CacheLine.tag = ls.map CacheLine.tag := by
  induction ls with
  | nil => rfl
  | cons l ls ih => simp [increment_LRU, ih]

theorem check_tags_eq (s : CacheSet) (t : Nat) :
    (s.check_cache_lines t).2.cacheLine.map CacheLine.tag =
      s.cacheLine.map CacheLine.tag ∧
    (s.check_cache_lines t).2.setSize = s.setSize ∧
    (s.check_cache_lines t).2.index = s.index ∧
    (s.check_cache_lines t).2.cacheLine.length = s.cacheLine.length := by
  cases hf : CacheSet.find_tag_pos t s.cacheLine with
  | none =>
    have h : s.check_cache_lines t = (false, s) := by
      unfold CacheSet.check_cache_lines
      rw [hf]
    rw [h]
    exact ⟨rfl, rfl, rfl, rfl⟩
  | some i =>
    have h : s.check_cache_lines t = (true, { s with
        cacheLine := CacheSet.set_LRU_at (s.cacheLine.map increment_LRU) i }) := by
      unfold CacheSet.check_cache_lines
      rw [hf]
    rw [h]
    refine ⟨?_, rfl, rfl, ?_⟩
    · show (CacheSet.set_LRU_at (s.cacheLine.map increment_LRU) i).map CacheLine.tag = _
      rw [map_tag_set_LRU_at, map_tag_map_incr]
    · show (CacheSet.set_LRU_at (s.cacheLine.map increment_LRU) i).length = _
      rw [set_LRU_at_length, List.length_map]

theorem find_tag_pos_none_iff (t : Nat) (ls : List CacheLine) :
    CacheSet.find_tag_pos t ls = none ↔ t ∉ ls.map CacheLine.tag := by
  induction ls with
  | nil => simp [CacheSet.find_tag_pos]
  | cons l ls ih =>
    by_cases hl : l.tag = t
    · simp [CacheSet.find_tag_pos, hl]
    · simp [CacheSet.find_tag_pos, hl, Ne.symm hl, ih]

theorem check_false_eq (s : CacheSet) (t : Nat) (s2 : CacheSet)
    (hc : s.check_cache_lines t = (false, s2)) :
    s2 = s ∧ t ∉ s.cacheLine.map CacheLine.tag := by
  cases hf : CacheSet.find_tag_pos t s.cacheLine with
  | none =>
    unfold CacheSet.check_cache_lines at hc
    rw [hf] at hc
    exact ⟨((Prod.ext_iff.mp hc).2).symm, (find_tag_pos_none_iff t s.cacheLine).mp hf⟩
  | some i =>
    unfold CacheSet.check_cache_lines at hc
    rw [hf] at hc
    exact absurd (Prod.ext_iff.mp hc).1 (by simp)

theorem nodup_set_of_not_mem (l : List Nat) (i : Nat) (t : Nat)
    (ht : t ∉ l) (h : l.Nodup) : (l.set i t).Nodup := by
  induction l generalizing i with
  | nil => simp
  | cons x xs ih =>
    simp only [List.mem_cons, not_or] at ht
    rw [List.nodup_cons] at h
    cases i with
    | zero =>
      rw [List.set_cons_zero, List.nodup_cons]
      exact ⟨ht.2, h.2⟩
    | succ i =>
      rw [List.set_cons_succ, List.nodup_cons]
      refine ⟨?_, ih i ht.2 h.2⟩
      intro hx
      rcases List.mem_or_eq_of_mem_set hx with h2 | h2
      · exact h.1 h2
      · exact ht.1 h2.symm

theorem map_tag_replace_line_at (t : Nat) (xs : List CacheLine) (i : Nat) :
    (CacheSet.replace_line_at t xs i).map CacheLine.tag =
      (xs.map CacheLine.tag).set i t := by
  induction xs generalizing i with
  | nil => rfl
  | cons l ls ih =>
    cases i with
    | zero => rfl
    | succ i => simp [CacheSet.replace_line_at, List.set_cons_succ, ih]

theorem update_preserves_inv (s : CacheSet) (t : Nat)
    (hlen : s.cacheLine.length ≤ s.setSize)
    (hnd : (s.cacheLine.map CacheLine.tag).Nodup)
    (hnm : t ∉ s.cacheLine.map CacheLine.tag) :
    SetInv (s.update_cache_lines t) := by
  by_cases h : s.cacheLine.length < s.setSize
  · have hu : s.update_cache_lines t =
        { s with cacheLine := s.cacheLine ++ [⟨t, 0⟩] } := by
      unfold CacheSet.update_cache_lines CacheSet.add_new_cache_line
      rw [if_pos h]
    rw [SetInv, hu]
    constructor
    · show (s.cacheLine ++ [(⟨t, 0⟩ : CacheLine)]).length ≤ s.setSize
      rw [List.length_append]
      simp only [List.length_singleton]
      omega
    · show ((s.cacheLine ++ [(⟨t, 0⟩ : CacheLine)]).map CacheLine.tag).Nodup
      rw [List.map_append]
      refine List.Nodup.append hnd (by simp) ?_
      intro x hx hx2
      simp only [List.map_cons, List.map_nil, List.mem_singleton] at hx2
      rw [hx2] at hx
      exact hnm hx
  · have hu : s.update_cache_lines t =
        { s with cacheLine :=
            CacheSet.replace_line_at t (s.cacheLine.map increment_LRU) s.find_LRU } := by
      unfold CacheSet.update_cache_lines
      rw [if_neg h]
    rw [SetInv, hu]
    constructor
    · show (CacheSet.replace_line_at t (s.cacheLine.map increment_LRU)
        s.find_LRU).length ≤ s.setSize
      rw [replace_line_at_length, List.length_map]
      exact hlen
    · show ((CacheSet.replace_line_at t (s.cacheLine.map increment_LRU)
        s.find_LRU).map CacheLine.tag).Nodup
      rw [map_tag_replace_line_at, map_tag_map_incr]
      exact nodup_set_of_not_mem _ _ _ hnm hnd

theorem probe_sets_cons_match_hit (i t : Nat) (s : CacheSet) (rest : List CacheSet)
    (s2 : CacheSet) (hi : i = s.index) (hc : s.check_cache_lines t = (true, s2)) :
    CacheTable.probe_sets i t (s :: rest) = (true, s2 :: rest) := by
  simp [CacheTable.probe_sets, hi, hc]

theorem probe_sets_cons_match_miss (i t : Nat) (s : CacheSet) (rest : List CacheSet)
    (s2 : CacheSet) (hi : i = s.index) (hc : s.check_cache_lines t = (false, s2)) :
    CacheTable.probe_sets i t (s :: rest) =
      (false, s2.update_cache_lines t :: rest) := by
  simp [CacheTable.probe_sets, hi, hc]

theorem probe_sets_cons_nomatch (i t : Nat) (s : CacheSet) (rest : List CacheSet)
    (hi : i ≠ s.index) :
    CacheTable.probe_sets i t (s :: rest) =
      ((CacheTable.probe_sets i t rest).1, s :: (CacheTable.probe_sets i t rest).2) := by
  simp [CacheTable.probe_sets, hi]

theorem probe_sets_preserve_inv (i t : Nat) (sets : List CacheSet)
    (h : ∀ s ∈ sets, SetInv s) :
    ∀ s ∈ (CacheTable.probe_sets i t sets).2, SetInv s := by
  induction sets with
  | nil => simp [CacheTable.probe_sets]
  | cons s rest ih =>
    have hs := h s (List.mem_cons_self s rest)
    have hrest : ∀ x ∈ rest, SetInv x := fun x hx => h x (List.mem_cons_of_mem s hx)
    by_cases hi : i = s.index
    · cases hc : s.check_cache_lines t with
      | mk b s2 =>
        cases b with
        | true =>
          rw [probe_sets_cons_match_hit i t s rest s2 hi hc]
          intro x hx
          rcases List.mem_cons.mp hx with rfl | hx2
          · have hte := check_tags_eq s t
            rw [hc] at hte
            exact ⟨hte.2.2.2 ▸ hte.2.1 ▸ hs.1, hte.1 ▸ hs.2⟩
          · exact hrest x hx2
        | false =>
          obtain ⟨hs2, hnm⟩ := check_false_eq s t s2 hc
          subst hs2
          rw [probe_sets_cons_match_miss i t s2 rest s2 hi hc]
          intro x hx
          rcases List.mem_cons.mp hx with rfl | hx2
          · exact update_preserves_inv s2 t hs.1 hs.2 hnm
          · exact hrest x hx2
    · rw [probe_sets_cons_nomatch i t s rest hi]
      intro x hx
      rcases List.mem_cons.mp hx with rfl | hx2
      · exact hs
      · exact ih hrest x hx2

theorem process_ref_cacheSet (c : CacheTable) (i t : Nat) :
    (c.process_ref i t).cacheSet = (CacheTable.probe_sets i t c.cacheSet).2 := by
  unfold CacheTable.process_ref CacheTable.determine_hit_or_miss
  cases hb : (CacheTable.probe_sets i t c.cacheSet).1 <;> simp [hb]

/-- C8: Set structural invariant — starting from a cache whose sets are all
empty, after any sequence of accesses every set holds at most `setSize` lines
and no set contains two lines with the same tag. -/
theorem C8_set_invariant (refs : List (Nat × Nat)) (c : CacheTable)
    (hinit : ∀ s ∈ c.cacheSet, s.cacheLine = []) :
    ∀ s ∈ (c.read_mem_trace refs).cacheSet, SetInv s := by
  have h0 : ∀ s ∈ c.cacheSet, SetInv s := by
    intro s hs
    rw [SetInv, hinit s hs]
    simp
  clear hinit
  induction refs generalizing c with
  | nil => exact h0
  | cons r rest ih =>
    obtain ⟨i, t⟩ := r
    have hunf : c.read_mem_trace ((i, t) :: rest) =
        (c.process_ref i t).read_mem_trace rest := rfl
    rw [hunf]
    refine ih (c.process_ref i t) ?_
    rw [process_ref_cacheSet]
    exact probe_sets_preserve_inv i t c.cacheSet h0

theorem C8_set_invariant_witness :
    (∀ s ∈ (initial_table 2 2).cacheSet, s.cacheLine = []) ∧
    (∀ s ∈ (CacheTable.read_mem_trace (initial_table 2 2)
        [(0, 1), (0, 2), (0, 3), (1, 1), (0, 2)]).cacheSet, SetInv s) :=
  ⟨by decide,
    C8_set_invariant [(0, 1), (0, 2), (0, 3), (1, 1), (0, 2)]
      (initial_table 2 2) (by decide)⟩

/-! Post-access residency (claim C10). -/

theorem check_true_of_mem (s : CacheSet) (t : Nat)
    (hmem : t ∈ s.cacheLine.map CacheLine.tag) :
    (s.check_cache_lines t).1 = true := by
  cases hf : CacheSet.find_tag_pos t s.cacheLine with
  | none => exact absurd hmem ((find_tag_pos_none_iff t s.cacheLine).mp hf)
  | some i =>
    unfold CacheSet.check_cache_lines
    rw [hf]

theorem mem_set_self (l : List Nat) (i : Nat) (t : Nat) (h : i < l.length) :
    t ∈ l.set i t := by
  induction l generalizing i with
  | nil => simp at h
  | cons x xs ih =>
    cases i with
    | zero =>
      rw [List.set_cons_zero]
      exact List.mem_cons_self t xs
    | succ i =>
      rw [List.set_cons_succ]
      exact List.mem_cons_of_mem x (ih i (by simpa using h))

theorem update_resident (s : CacheSet) (t : Nat) (hpos : 0 < s.setSize) :
    t ∈ (s.update_cache_lines t).cacheLine.map CacheLine.tag := by
  by_cases h : s.cacheLine.length < s.setSize
  · have hu : s.update_cache_lines t =
        { s with cacheLine := s.cacheLine ++ [⟨t, 0⟩] } := by
      unfold CacheSet.update_cache_lines CacheSet.add_new_cache_line
      rw [if_pos h]
    rw [hu]
    show t ∈ (s.cacheLine ++ [(⟨t, 0⟩ : CacheLine)]).map CacheLine.tag
    simp
  · have hne : s.cacheLine ≠ [] := by
      intro hnil
      rw [hnil] at h
      simp at h
      omega
    obtain ⟨hv, -, -⟩ := find_LRU_spec s ⟨0, 0⟩ hne
    have hu : s.update_cache_lines t =
        { s with cacheLine :=
            CacheSet.replace_line_at t (s.cacheLine.map increment_LRU) s.find_LRU } := by
      unfold CacheSet.update_cache_lines
      rw [if_neg h]
    rw [hu]
    show t ∈ (CacheSet.replace_line_at t (s.cacheLine.map increment_LRU)
      s.find_LRU).map CacheLine.tag
    rw [map_tag_replace_line_at, map_tag_map_incr]
    exact mem_set_self _ _ _ (by rw [List.length_map]; exact hv)

theorem update_frame (s : CacheSet) (t : Nat) :
    (s.update_cache_lines t).index = s.index ∧
    (s.update_cache_lines t).setSize = s.setSize := by
  unfold CacheSet.update_cache_lines CacheSet.add_new_cache_line
  by_cases h : s.cacheLine.length < s.setSize <;> simp [h]

theorem check_true_mem (s : CacheSet) (t : Nat) (s2 : CacheSet)
    (hc : s.check_cache_lines t = (true, s2)) :
    t ∈ s.cacheLine.map CacheLine.tag ∧
    s2.cacheLine.map CacheLine.tag = s.cacheLine.map CacheLine.tag ∧
    s2.index = s.index ∧ s2.setSize = s.setSize := by
  have hte := check_tags_eq s t
  rw [hc] at hte
  refine ⟨?_, hte.1, hte.2.2.1, hte.2.1⟩
  by_contra hn
  have hf := (find_tag_pos_none_iff t s.cacheLine).mpr hn
  unfold CacheSet.check_cache_lines at hc
  rw [hf] at hc
  exact absurd (Prod.ext_iff.mp hc).1 (by simp)

theorem probe_then_hit (i t : Nat) (sets : List CacheSet)
    (hpos : ∀ s ∈ sets, 0 < s.setSize)
    (hex : ∃ s ∈ sets, s.index = i) :
    (∃ s ∈ (CacheTable.probe_sets i t sets).2, s.index = i ∧
      t ∈ s.cacheLine.map CacheLine.tag) ∧
    (CacheTable.probe_sets i t (CacheTable.probe_sets i t sets).2).1 = true := by
  induction sets with
  | nil => simp at hex
  | cons s rest ih =>
    by_cases hi : i = s.index
    · cases hc : s.check_cache_lines t with
      | mk b s2 =>
        cases b with
        | true =>
          obtain ⟨hmem, htags, hidx, -⟩ := check_true_mem s t s2 hc
          rw [probe_sets_cons_match_hit i t s rest s2 hi hc]
          have hm2 : t ∈ s2.cacheLine.map CacheLine.tag := by
            rw [htags]
            exact hmem
          refine ⟨⟨s2, List.mem_cons_self s2 rest, by rw [hidx, ← hi], hm2⟩, ?_⟩
          have h1 : (s2.check_cache_lines t).1 = true := check_true_of_mem s2 t hm2
          cases hc2 : s2.check_cache_lines t with
          | mk b2 s3 =>
            rw [hc2] at h1
            cases b2 with
            | false => exact absurd h1 (by simp)
            | true =>
              rw [probe_sets_cons_match_hit i t s2 rest s3 (by rw [hi, ← hidx]) hc2]
        | false =>
          obtain ⟨hs2, hnm⟩ := check_false_eq s t s2 hc
          subst hs2
          rw [probe_sets_cons_match_miss i t s2 rest s2 hi hc]
          have hpos2 : 0 < s2.setSize := hpos s2 (List.mem_cons_self s2 rest)
          have hres : t ∈ (s2.update_cache_lines t).cacheLine.map CacheLine.tag :=
            update_resident s2 t hpos2
          have hfr := update_frame s2 t
          refine ⟨⟨s2.update_cache_lines t,
            List.mem_cons_self _ rest, by rw [hfr.1, ← hi], hres⟩, ?_⟩
          have h1 : ((s2.update_cache_lines t).check_cache_lines t).1 = true :=
            check_true_of_mem _ t hres
          cases hc2 : (s2.update_cache_lines t).check_cache_lines t with
          | mk b2 s3 =>
            rw [hc2] at h1
            cases b2 with
            | false => exact absurd h1 (by simp)
            | true =>
              rw [probe_sets_cons_match_hit i t (s2.update_cache_lines t) rest s3
                (by rw [hfr.1, ← hi]) hc2]
    · rw [probe_sets_cons_nomatch i t s rest hi]
      have hex2 : ∃ x ∈ rest, x.index = i := by
        rcases hex with ⟨x, hx, hxi⟩
        rcases List.mem_cons.mp hx with rfl | hx2
        · exact absurd hxi.symm hi
        · exact ⟨x, hx2, hxi⟩
      have hpos2 : ∀ x ∈ rest, 0 < x.setSize :=
        fun x hx => hpos x (List.mem_cons_of_mem s hx)
      obtain ⟨hex3, hhit⟩ := ih hpos2 hex2
      constructor
      · rcases hex3 with ⟨x, hx, hxi, hxt⟩
        exact ⟨x, List.mem_cons_of_mem s hx, hxi, hxt⟩
      · rw [probe_sets_cons_nomatch i t s (CacheTable.probe_sets i t rest).2 hi]
        exact hhit

/-- C10: Post-access residency — for every cache state (with positive set
capacities) and every reference whose decomposed index names an existing set,
after the classify-then-maybe-insert access the reference's tag is resident
in a set with that index, and an immediately repeated access to the same
(index, tag) pair yields a Hit. -/
theorem C10_post_access_residency (c : CacheTable) (i t : Nat)
    (hpos : ∀ s ∈ c.cacheSet, 0 < s.setSize)
    (hex : ∃ s ∈ c.cacheSet, s.index = i) :
    (∃ s ∈ (c.determine_hit_or_miss i t).2.cacheSet, s.index = i ∧
      t ∈ s.cacheLine.map CacheLine.tag) ∧
    ((c.determine_hit_or_miss i t).2.determine_hit_or_miss i t).1 = true := by
  have hfst : ∀ c2 : CacheTable,
      (c2.determine_hit_or_miss i t).1 = (CacheTable.probe_sets i t c2.cacheSet).1 := by
    intro c2
    unfold CacheTable.determine_hit_or_miss
    cases hb : (CacheTable.probe_sets i t c2.cacheSet).1 <;> simp [hb]
  have hsets : (c.determine_hit_or_miss i t).2.cacheSet =
      (CacheTable.probe_sets i t c.cacheSet).2 := by
    unfold CacheTable.determine_hit_or_miss
    cases hb : (CacheTable.probe_sets i t c.cacheSet).1 <;> simp [hb]
  obtain ⟨h1, h2⟩ := probe_then_hit i t c.cacheSet hpos hex
  refine ⟨by rw [hsets]; exact h1, ?_⟩
  rw [hfst, hsets]
  exact h2

theorem C10_post_access_residency_witness :
    (∀ s ∈ (initial_table 1 2).cacheSet, 0 < s.setSize) ∧
    (∃ s ∈ (initial_table 1 2).cacheSet, s.index = 1) ∧
    ((∃ s ∈ ((initial_table 1 2).determine_hit_or_miss 1 5).2.cacheSet,
        s.index = 1 ∧ 5 ∈ s.cacheLine.map CacheLine.tag) ∧
      (((initial_table 1 2).determine_hit_or_miss 1 5).2.determine_hit_or_miss 1 5).1 =
        true) :=
  ⟨by decide, by decide,
    C10_post_access_residency (initial_table 1 2) 1 5 (by decide) (by decide)⟩

/-! LRU eviction scenario (claim C5). -/

/-- C5: LRU eviction order — starting from an empty set of capacity 2,
accessing the distinct tags `A, B, A, C` at the same index yields the
recorded outcomes Miss, Miss, Hit, Miss, and afterwards the resident tags of
that set are exactly `[A, C]` in vector order (B was the evicted victim). -/
theorem C5_lru_eviction (A B C : Nat) (hAB : A ≠ B) (hAC : A ≠ C) (hBC : B ≠ C) :
    (CacheTable.read_mem_trace (initial_table 2 1)
      [(0, A), (0, B), (0, A), (0, C)]).memRefHM = [false, false, true, false] ∧
    ((CacheTable.read_mem_trace (initial_table 2 1)
      [(0, A), (0, B), (0, A), (0, C)]).cacheSet.map
        fun s => s.cacheLine.map CacheLine.tag) = [[A, C]] := by
  simp [CacheTable.read_mem_trace, CacheTable.process_ref,
    CacheTable.determine_hit_or_miss, CacheTable.probe_sets,
    CacheSet.check_cache_lines, CacheSet.find_tag_pos, CacheSet.update_cache_lines,
    CacheSet.add_new_cache_line, CacheSet.set_LRU_at, CacheSet.find_LRU,
    CacheSet.find_LRU_from, CacheSet.replace_line_at, increment_LRU,
    initial_table, make_sets, hAB, hAC, hBC, Ne.symm hAB, Ne.symm hAC, Ne.symm hBC]

theorem C5_lru_eviction_witness :
    (1 : Nat) ≠ 2 ∧ (1 : Nat) ≠ 3 ∧ (2 : Nat) ≠ 3 ∧
    ((CacheTable.read_mem_trace (initial_table 2 1)
      [(0, 1), (0, 2), (0, 1), (0, 3)]).memRefHM = [false, false, true, false] ∧
    ((CacheTable.read_mem_trace (initial_table 2 1)
      [(0, 1), (0, 2), (0, 1), (0, 3)]).cacheSet.map
        fun s => s.cacheLine.map CacheLine.tag) = [[1, 3]]) :=
  ⟨by decide, by decide, by decide,
    C5_lru_eviction 1 2 3 (by decide) (by decide) (by decide)⟩

end CacheSim
